import Mathlib

/-!
Verification of the `neural-cli` single-hidden-layer neural network
(`src/neuralnet.py`, class `NeuralNet`) against its natural-language
specification.

The Python code is shallowly embedded: matrices (`np.matrix`) become
`List (List ℝ)` in row-major layout, flat parameter vectors become
`List ℝ`, and floating-point arithmetic is modelled over `ℝ`.
`np.reshape` raises `ValueError` on a size mismatch; this fallibility is
modelled with `Option`.  The code targets Python 2 (it uses `xrange`), so
`length/10` in `split` is integer floor division, modelled by `Nat`
division.  The external optimizer (`scipy.optimize.minimize`) is an
out-of-scope collaborator and is passed in as an opaque function argument,
exactly as the spec's §9 capability interface prescribes.
-/

namespace NN

noncomputable section

/-- Row-major matrix of reals, embedding `np.matrix`. -/
abbrev Mat : Type := List (List ℝ)

/-- Dot product of two row vectors, the scalar kernel of `np.matrix`
multiplication. -/
def dot (u v : List ℝ) : ℝ := (List.zipWith (· * ·) u v).sum

/-- Product `A * B.T` of row-major matrices, embedding the only form of
matrix product the source uses (`a1 * theta1.T`, `a2 * theta2.T`):
entry (r, c) is the dot product of row r of A with row c of B. -/
def matMulT (A B : Mat) : Mat := A.map (fun ar => B.map (fun br => dot ar br))

/-- Embeds `np.insert(M, 0, values=np.ones(m), axis=1)`: prepend a column
of ones (bias augmentation), as in `feed_forward` lines 159 and 162. -/
def addOnes (M : Mat) : Mat := M.map (fun r => 1 :: r)

/-- Elementwise subtraction of rows, embedding `ht - yt`. -/
def vsub (u v : List ℝ) : List ℝ := List.zipWith (· - ·) u v

/-- Elementwise matrix sum, embedding `delta + ...` on equally shaped
`np.matrix` values. -/
def matAdd (A B : Mat) : Mat := List.zipWith (fun ar br => List.zipWith (· + ·) ar br) A B

/-- `sigmoid` (line 97): `1 / (1 + np.exp(-z))`. -/
def sigmoid (z : ℝ) : ℝ := 1 / (1 + Real.exp (-z))

/-- `sigmoid_gradient` (line 110): `sigmoid(z) * (1 - sigmoid(z))`. -/
def sigmoid_gradient (z : ℝ) : ℝ := sigmoid z * (1 - sigmoid z)

/-- Elementwise sigmoid of a matrix, embedding `self.sigmoid(z2)` on an
`np.matrix`. -/
def sigmoidM (M : Mat) : Mat := M.map (fun r => r.map sigmoid)

/-- Split a flat list into `r` consecutive rows of `c` entries each;
the row-major reshape kernel of `np.reshape(v, (r, c))`. -/
def chunk (r c : Nat) (l : List ℝ) : List (List ℝ) :=
  match r with
  | 0 => []
  | Nat.succ r => l.take c :: chunk r c (l.drop c)

/-- Embeds `np.reshape(v, (r, c))`, which raises `ValueError` unless the
input holds exactly `r * c` entries; failure is modelled by `none`. -/
def npReshape (r c : Nat) (l : List ℝ) : Option (List (List ℝ)) :=
  if l.length = r * c then some (chunk r c l) else none

/-- `reshape_theta` (lines 123-138): split the flat parameter vector at
offset `hid * (isz + 1)` and reshape the two segments to
`(hid, isz + 1)` and `(L, hid + 1)`; any length mismatch raises in
numpy, modelled by `none`. `hid`, `isz`, `L` are the instance fields
`hidden_size`, `input_size`, `num_labels`. -/
def reshape_theta (hid isz L : Nat) (params : List ℝ) : Option (Mat × Mat) :=
  match npReshape hid (isz + 1) (params.take (hid * (isz + 1))),
        npReshape L (hid + 1) (params.drop (hid * (isz + 1))) with
  | some t1, some t2 => some (t1, t2)
  | _, _ => none

/-- Row-major flattening-and-concatenation of a pair of matrices,
embedding `np.concatenate((np.ravel(A), np.ravel(B)))` (line 225). -/
def flattenPair (p : Mat × Mat) : List ℝ := p.1.flatten ++ p.2.flatten

/-- `feed_forward` (lines 140-166): returns the activation quintuple
`(a1, z2, a2, z3, h)` with `a1 = [ones X]`, `z2 = a1 * theta1.T`,
`a2 = [ones sigmoid(z2)]`, `z3 = a2 * theta2.T`, `h = sigmoid(z3)`. -/
def feed_forward (X t1 t2 : Mat) : Mat × Mat × Mat × Mat × Mat :=
  let a1 := addOnes X
  let z2 := matMulT a1 t1
  let a2 := addOnes (sigmoidM z2)
  let z3 := matMulT a2 t2
  let h := sigmoidM z3
  (a1, z2, a2, z3, h)

/-- The clipping floor `minval = 0.0000000001` of `get_cost` (line 229). -/
def minval : ℝ := 1 / 10 ^ 10

/-- Embeds `h.clip(minval)` elementwise: `np.clip` with only a lower
bound replaces each entry by `max entry minval`. -/
def clipMin (x : ℝ) : ℝ := max x minval

/-- One entry of `first_term - second_term` in `get_cost` (lines 243-246):
`-y*log(h.clip(minval)) - (1-y)*log(1 - h.clip(minval))`.  Note the
source clips `h` but not `1 - h`: the second logarithm's argument is
`1 - max h minval`, which is 0 when `h = 1`.  `Real.log` is total (0 on
nonpositive arguments), so finiteness of the floating-point computation
is tracked separately by `CostFinite`. -/
def costEntry (yv hv : ℝ) : ℝ :=
  (-yv) * Real.log (clipMin hv) - (1 - yv) * Real.log (1 - clipMin hv)

/-- `get_cost` (lines 229-246): sum of `first_term - second_term` over all
entries; the source does not divide by `m` here (its caller `fit` does). -/
def get_cost (y h : Mat) : ℝ :=
  (List.zipWith (fun yr hr => (List.zipWith costEntry yr hr).sum) y h).sum

/-- Finiteness of the floating-point value of `get_cost` at a prediction
matrix `h`: every argument handed to `np.log` is strictly positive.  In
IEEE arithmetic `np.log 0 = -inf`; with one-hot `y` (entries 0 or 1) any
zero log argument hence makes the total non-finite (`+inf` when the
factor `1 - y` is 1, `NaN` from `0 * -inf` when it is 0), and when every
argument is positive the total is finite. -/
def CostFinite (h : Mat) : Prop :=
  ∀ hr ∈ h, ∀ hv ∈ hr, 0 < clipMin hv ∧ 0 < 1 - clipMin hv

/-- A one-hot row of the label matrix `Y`: every entry is 0 or 1 and the
entries sum to 1 (hence exactly one entry is 1). -/
def OneHotRow (r : List ℝ) : Prop := (∀ v ∈ r, v = 0 ∨ v = 1) ∧ r.sum = 1

/-- A one-hot label matrix (spec §3: exactly one 1 per row, rest 0). -/
def OneHot (y : Mat) : Prop := ∀ r ∈ y, OneHotRow r

/-- Embeds `np.sum(np.power(theta[:,1:], 2))` (line 200): the sum of
squares of all non-bias entries (bias column 0 dropped from each row). -/
def sumSqTail (M : Mat) : ℝ := (M.map (fun r => ((r.drop 1).map (fun x => x ^ 2)).sum)).sum

/-- Embeds `(theta2.T * d3t.T).T` as a flat row vector (line 214): entry
`i` is the dot product of column `i` of `theta2` with `d3t`. -/
def matTvec (M : Mat) (v : List ℝ) : List ℝ :=
  (List.range (M.headD []).length).map (fun i => dot (M.map (fun r => r.getD i 0)) v)

/-- Outer product of a column vector and a row vector, embedding
`u.T * v` for rows `u`, `v` (lines 216-217). -/
def outer (u v : List ℝ) : Mat := u.map (fun a => v.map (fun b => a * b))

/-- One iteration of the backpropagation loop of `fit` (lines 204-217):
given the rows of `a1, z2, a2, h, y` at index `t`, produce the two
outer-product increments added to `delta1` and `delta2`. -/
def fit_step (t2 : Mat) (a1t z2t a2t ht yt : List ℝ) : Mat × Mat :=
  let d3t := vsub ht yt
  let z2tb := 1 :: z2t
  let d2t := List.zipWith (fun u z => u * sigmoid_gradient z) (matTvec t2 d3t) z2tb
  (outer (d2t.drop 1) a1t, outer d3t a2t)

/-- `np.zeros(M.shape)` (lines 195-196). -/
def zerosLike (M : Mat) : Mat := M.map (fun r => r.map (fun _ => 0))

/-- The accumulation loop `for t in range(m)` of `fit` (lines 204-217),
starting from `np.zeros(theta.shape)` accumulators. -/
def fit_accum (t2 a1 z2 a2 h y : Mat) (m : Nat) (init1 init2 : Mat) : Mat × Mat :=
  (List.range m).foldl
    (fun acc t =>
      let st := fit_step t2 (a1.getD t []) (z2.getD t []) (a2.getD t []) (h.getD t []) (y.getD t [])
      (matAdd acc.1 st.1, matAdd acc.2 st.2))
    (init1, init2)

/-- Elementwise division of a matrix by the example count, embedding
`delta / m` (lines 219-220). -/
def matDivN (M : Mat) (m : Nat) : Mat := M.map (fun r => r.map (fun x => x / (m : ℝ)))

/-- One row of the regularization update
`delta[:,1:] = delta[:,1:] + (theta[:,1:] * lam) / m` (lines 222-223):
the bias entry (column 0) is kept, every later entry gains
`theta * lam / m`. -/
def regRow (lam m : ℝ) (trow drow : List ℝ) : List ℝ :=
  match drow with
  | [] => []
  | d0 :: ds => d0 :: List.zipWith (fun d t => d + t * lam / m) ds (trow.drop 1)

/-- The regularization update applied to a whole gradient accumulator
(lines 222-223). -/
def fit_reg (lam m : ℝ) (theta delta : Mat) : Mat :=
  List.zipWith (regRow lam m) theta delta

/-- The λ-independent part of the backpropagation half of `fit`
(lines 191-220): forward pass, per-example accumulation, division by
`m`.  The regularization strength `lam` enters `fit`'s gradient only in
the later update of lines 222-223 (`fit_reg`), so this accumulator is
shared verbatim between any two regularization strengths. -/
def fit_deltadivs (t1 t2 X y : Mat) : Mat × Mat :=
  let ff := feed_forward X t1 t2
  let a1 := ff.1
  let z2 := ff.2.1
  let a2 := ff.2.2.1
  let h := ff.2.2.2.2
  let m := X.length
  let acc := fit_accum t2 a1 z2 a2 h y m (zerosLike t1) (zerosLike t2)
  (matDivN acc.1 m, matDivN acc.2 m)

/-- The two gradient matrices produced by the backpropagation half of
`fit` (lines 191-223): the accumulated and averaged deltas with the
regularization update of lines 222-223 applied to each. -/
def fit_gradmats (lam : ℝ) (t1 t2 X y : Mat) : Mat × Mat :=
  (fit_reg lam (X.length : ℝ) t1 (fit_deltadivs t1 t2 X y).1,
   fit_reg lam (X.length : ℝ) t2 (fit_deltadivs t1 t2 X y).2)

/-- The pure value of `fit` (lines 168-227): unflatten the parameters
(numpy raises on a length mismatch, modelled by `none`), forward-
propagate, compute the regularized cost
`J = get_cost(y, h)/m + lam/(2m) * (sumSq theta1[:,1:] + sumSq theta2[:,1:])`,
backward-propagate, and return `(J, ravel delta1 ++ ravel delta2)`.
The writer side effect is handled by the stateful wrapper `fitS`. -/
def fitCore (lam : ℝ) (hid isz L : Nat) (params : List ℝ) (X y : Mat) :
    Option (ℝ × List ℝ) :=
  match reshape_theta hid isz L params with
  | none => none
  | some (t1, t2) =>
    let m : ℝ := (X.length : ℝ)
    let h := (feed_forward X t1 t2).2.2.2.2
    let J := get_cost y h / m + lam / (2 * m) * (sumSqTail t1 + sumSqTail t2)
    let G := fit_gradmats lam t1 t2 X y
    some (J, flattenPair G)

/-- The mutable per-instance state set up by `__init__` (lines 13-41):
training matrices, architecture sizes, regularization strength, flat
parameter vector and iteration budget.  The writer and output path are
external collaborators and not part of the numerical state. -/
structure NNState where
  X : Mat
  Y : Mat
  num_labels : Nat
  input_size : Nat
  hidden_size : Nat
  lam : ℝ
  params : List ℝ
  maxiter : Nat

/-- Stateful embedding of the method `fit` (lines 168-227): the instance
state is threaded explicitly; the result carries the state after the
call, the list of values written to the progress sink (`writer.write(J)`
exactly when `output` is true, line 201-202), and the returned
`(J, grad)` pair.  The Python body assigns no `self` attribute, so the
state component is returned unchanged. -/
def fitS (s : NNState) (params : List ℝ) (X y : Mat) (output : Bool) :
    Option (NNState × List ℝ × (ℝ × List ℝ)) :=
  match fitCore s.lam s.hidden_size s.input_size s.num_labels params X y with
  | none => none
  | some Jg => some (s, if output then [Jg.1] else [], Jg)

/-- The objective `train` hands to the optimizer (line 55): the method
`self.fit` partially applied to `(self.X, self.Y, verbose)`; the
optimizer consumes only the `(cost, gradient)` value. -/
def objective (s : NNState) : List ℝ → Option (ℝ × List ℝ) :=
  fun p => fitCore s.lam s.hidden_size s.input_size s.num_labels p s.X s.Y

/-- Stateful embedding of `train` (lines 43-62).  The external black-box
optimizer (`scipy.optimize.minimize`, an out-of-scope collaborator per
the spec) is an argument mapping (objective, starting point, iteration
budget) to the optimized vector `fmin.x`.  The body runs the optimizer,
optionally writes `fmin.x` to the output file (second component), and
returns `fmin.x` (third component).  No `self` attribute is assigned
anywhere in the body, so the state comes back unchanged. -/
def train (s : NNState)
    (optimizer : (List ℝ → Option (ℝ × List ℝ)) → List ℝ → Nat → List ℝ)
    (_verbose save : Bool) : NNState × Option (List ℝ) × List ℝ :=
  let fminx := optimizer (objective s) s.params s.maxiter
  (s, if save then some fminx else none, fminx)

/-- Python slice `l[a:b]` for `0 ≤ a ≤ b` on a list of rows. -/
def pySlice (a b : Nat) (l : Mat) : Mat := (l.take b).drop a

/-- `split` (lines 319-343).  The source targets Python 2 (`xrange` at
lines 266 and 297), so `unit = length/10` is integer floor division;
`int(round(unit*6, 0))` and `int(round(unit*2, 0))` are then just
`6 * unit` and `2 * unit`.  The three slices are
`input[0:train]`, `input[train:train+cross_test]`,
`input[train+cross_test:length]`. -/
def split (input : Mat) : Mat × Mat × Mat :=
  let length := input.length
  let unit := length / 10
  let train := 6 * unit
  let cross_test := 2 * unit
  (pySlice 0 train input, pySlice train (train + cross_test) input,
   pySlice (train + cross_test) length input)

/-- The train-block size that the specification's words prescribe for
`split` on `n` rows: `round(0.6 * n)`.  Stated over `ℚ` so that the
rounding is exact; used only to compare the spec's claim with the
source's `split`. -/
def specTrainCount (n : Nat) : ℤ := round ((6 * n : ℚ) / 10)

end

/-! ## Helper lemmas for the parameter codec -/

theorem join_chunk (c : Nat) :
    ∀ (r : Nat) (l : List ℝ), l.length = r * c → (chunk r c l).flatten = l := by
  intro r
  induction r with
  | zero =>
    intro l hl
    simp only [Nat.zero_mul] at hl
    simp [chunk, List.eq_nil_of_length_eq_zero hl]
  | succ r ih =>
    intro l hl
    have hc : c ≤ l.length := by rw [hl, Nat.succ_mul]; omega
    have hdrop : (l.drop c).length = r * c := by
      rw [List.length_drop, hl, Nat.succ_mul]; omega
    simp only [chunk, List.flatten_cons, ih (l.drop c) hdrop, List.take_append_drop]

theorem chunk_num_rows (r c : Nat) (l : List ℝ) : (chunk r c l).length = r := by
  induction r generalizing l with
  | zero => rfl
  | succ r ih => simp [chunk, ih]

theorem chunk_row_length (c : Nat) :
    ∀ (r : Nat) (l : List ℝ), l.length = r * c → ∀ row ∈ chunk r c l, row.length = c := by
  intro r
  induction r with
  | zero => intro l _ row hrow; simp [chunk] at hrow
  | succ r ih =>
    intro l hl row hrow
    have hc : c ≤ l.length := by rw [hl, Nat.succ_mul]; omega
    have hdrop : (l.drop c).length = r * c := by
      rw [List.length_drop, hl, Nat.succ_mul]; omega
    simp only [chunk, List.mem_cons] at hrow
    rcases hrow with h | h
    · rw [h, List.length_take]; omega
    · exact ih (l.drop c) hdrop row h

theorem chunk_flatten (c : Nat) :
    ∀ (M : Mat), (∀ row ∈ M, row.length = c) → chunk M.length c M.flatten = M := by
  intro M
  induction M with
  | nil => intro _; rfl
  | cons row M ih =>
    intro hrows
    have hrow : row.length = c := hrows row (by simp)
    have htake : (row ++ M.flatten).take c = row := by
      rw [← hrow, List.take_left]
    have hdrop : (row ++ M.flatten).drop c = M.flatten := by
      rw [← hrow, List.drop_left]
    simp only [List.length_cons, List.flatten_cons, chunk, htake, hdrop, List.cons.injEq, true_and]
    exact ih (fun r hr => hrows r (by simp [hr]))

theorem flatten_length_of_rows (c : Nat) :
    ∀ (M : Mat), (∀ row ∈ M, row.length = c) → M.flatten.length = M.length * c := by
  intro M
  induction M with
  | nil => intro _; simp
  | cons row M ih =>
    intro hrows
    have hrow : row.length = c := hrows row (by simp)
    simp only [List.flatten_cons, List.length_append, List.length_cons, hrow,
      ih (fun r hr => hrows r (by simp [hr])), Nat.succ_mul]
    omega

theorem reshape_theta_some (hid isz L : Nat) (v : List ℝ)
    (h : v.length = hid * (isz + 1) + L * (hid + 1)) :
    reshape_theta hid isz L v =
      some (chunk hid (isz + 1) (v.take (hid * (isz + 1))),
            chunk L (hid + 1) (v.drop (hid * (isz + 1)))) := by
  have h1 : (v.take (hid * (isz + 1))).length = hid * (isz + 1) := by
    rw [List.length_take]; omega
  have h2 : (v.drop (hid * (isz + 1))).length = L * (hid + 1) := by
    rw [List.length_drop]; omega
  unfold reshape_theta npReshape
  rw [if_pos h1, if_pos h2]

theorem reshape_theta_none (hid isz L : Nat) (v : List ℝ)
    (h : v.length ≠ hid * (isz + 1) + L * (hid + 1)) :
    reshape_theta hid isz L v = none := by
  unfold reshape_theta
  rcases Nat.lt_or_ge v.length (hid * (isz + 1)) with hlt | hge
  · have h1 : npReshape hid (isz + 1) (v.take (hid * (isz + 1))) = none := by
      unfold npReshape
      rw [if_neg]
      rw [List.length_take]
      omega
    rw [h1]
  · have h2 : npReshape L (hid + 1) (v.drop (hid * (isz + 1))) = none := by
      unfold npReshape
      rw [if_neg]
      rw [List.length_drop]
      omega
    rw [h2]
    cases npReshape hid (isz + 1) (v.take (hid * (isz + 1))) <;> rfl

/-! ## Claim theorems -/

/-- C4: the parameter codec is an exact inverse pair.  For every flat
vector `v` of length `hid*(isz+1) + L*(hid+1)`, row-major flattening of
the matrix pair produced by `reshape_theta` yields `v` again; and for
every pair of matrices of shapes `(hid, isz+1)` and `(L, hid+1)`,
unflattening their row-major flattening returns the pair exactly. -/
theorem C4_codec_roundtrip :
    (∀ (hid isz L : Nat) (v : List ℝ),
      v.length = hid * (isz + 1) + L * (hid + 1) →
      ∃ t1 t2, reshape_theta hid isz L v = some (t1, t2) ∧ flattenPair (t1, t2) = v) ∧
    (∀ (hid isz L : Nat) (t1 t2 : Mat),
      t1.length = hid → (∀ r ∈ t1, r.length = isz + 1) →
      t2.length = L → (∀ r ∈ t2, r.length = hid + 1) →
      reshape_theta hid isz L (flattenPair (t1, t2)) = some (t1, t2)) := by
  constructor
  · intro hid isz L v h
    refine ⟨_, _, reshape_theta_some hid isz L v h, ?_⟩
    have h1 : (v.take (hid * (isz + 1))).length = hid * (isz + 1) := by
      rw [List.length_take]; omega
    have h2 : (v.drop (hid * (isz + 1))).length = L * (hid + 1) := by
      rw [List.length_drop]; omega
    unfold flattenPair
    rw [join_chunk (isz + 1) hid _ h1, join_chunk (hid + 1) L _ h2,
      List.take_append_drop]
  · intro hid isz L t1 t2 h1 h1r h2 h2r
    have hf1 : t1.flatten.length = hid * (isz + 1) := by
      rw [flatten_length_of_rows (isz + 1) t1 h1r, h1]
    have hf2 : t2.flatten.length = L * (hid + 1) := by
      rw [flatten_length_of_rows (hid + 1) t2 h2r, h2]
    have hlen : (flattenPair (t1, t2)).length = hid * (isz + 1) + L * (hid + 1) := by
      unfold flattenPair
      rw [List.length_append, hf1, hf2]
    rw [reshape_theta_some hid isz L _ hlen]
    have htake : (flattenPair (t1, t2)).take (hid * (isz + 1)) = t1.flatten := by
      unfold flattenPair
      rw [← hf1, List.take_left]
    have hdrop : (flattenPair (t1, t2)).drop (hid * (isz + 1)) = t2.flatten := by
      unfold flattenPair
      rw [← hf1, List.drop_left]
    have hc1 : chunk hid (isz + 1) t1.flatten = t1 := by
      rw [← h1]; exact chunk_flatten (isz + 1) t1 h1r
    have hc2 : chunk L (hid + 1) t2.flatten = t2 := by
      rw [← h2]; exact chunk_flatten (hid + 1) t2 h2r
    rw [htake, hdrop, hc1, hc2]

/-- C4 witness: the round trip evaluated at a concrete length-4 vector
and a concrete pair of 1x2 matrices (hidden_size = input_size =
num_labels = 1). -/
theorem C4_codec_roundtrip_witness :
    (∃ t1 t2, reshape_theta 1 1 1 [(1 : ℝ), 2, 3, 4] = some (t1, t2) ∧
      flattenPair (t1, t2) = [(1 : ℝ), 2, 3, 4]) ∧
    reshape_theta 1 1 1 (flattenPair ([[(5 : ℝ), 6]], [[7, 8]])) =
      some ([[(5 : ℝ), 6]], [[7, 8]]) := by
  constructor
  · exact C4_codec_roundtrip.1 1 1 1 [(1 : ℝ), 2, 3, 4] (by decide)
  · exact C4_codec_roundtrip.2 1 1 1 [[(5 : ℝ), 6]] [[7, 8]]
      (by decide) (by decide) (by decide) (by decide)

/-- C7: `reshape_theta` succeeds exactly on vectors of length
`hid*(isz+1) + L*(hid+1)`: such a vector yields matrices of shapes
`(hid, isz+1)` and `(L, hid+1)`, any other length fails (numpy raises
`ValueError`, modelled by `none`), never truncating or padding; and in
`fit` the failure happens before any cost or gradient computation, so a
malformed vector makes the whole of `fit` fail. -/
theorem C7_reshape_exact (hid isz L : Nat) (v : List ℝ) :
    (v.length = hid * (isz + 1) + L * (hid + 1) →
      ∃ t1 t2, reshape_theta hid isz L v = some (t1, t2) ∧
        t1.length = hid ∧ (∀ r ∈ t1, r.length = isz + 1) ∧
        t2.length = L ∧ (∀ r ∈ t2, r.length = hid + 1)) ∧
    (v.length ≠ hid * (isz + 1) + L * (hid + 1) →
      reshape_theta hid isz L v = none ∧
      ∀ (lam : ℝ) (X y : Mat), fitCore lam hid isz L v X y = none) := by
  constructor
  · intro h
    have h1 : (v.take (hid * (isz + 1))).length = hid * (isz + 1) := by
      rw [List.length_take]; omega
    have h2 : (v.drop (hid * (isz + 1))).length = L * (hid + 1) := by
      rw [List.length_drop]; omega
    refine ⟨_, _, reshape_theta_some hid isz L v h, ?_, ?_, ?_, ?_⟩
    · exact chunk_num_rows hid (isz + 1) _
    · exact chunk_row_length (isz + 1) hid _ h1
    · exact chunk_num_rows L (hid + 1) _
    · exact chunk_row_length (hid + 1) L _ h2
  · intro h
    have hnone := reshape_theta_none hid isz L v h
    refine ⟨hnone, fun lam X y => ?_⟩
    unfold fitCore
    rw [hnone]

/-- C7 witness: with hidden_size = input_size = num_labels = 1 the
expected length is 4; a length-4 vector unflattens to a 1x2/1x2 pair and
a length-3 vector makes `reshape_theta` (and hence `fit`) fail. -/
theorem C7_reshape_exact_witness :
    (∃ t1 t2, reshape_theta 1 1 1 [(9 : ℝ), 8, 7, 6] = some (t1, t2) ∧
      t1.length = 1 ∧ (∀ r ∈ t1, r.length = 2) ∧
      t2.length = 1 ∧ (∀ r ∈ t2, r.length = 2)) ∧
    (reshape_theta 1 1 1 [(9 : ℝ), 8, 7] = none ∧
      ∀ (lam : ℝ) (X y : Mat), fitCore lam 1 1 1 [(9 : ℝ), 8, 7] X y = none) := by
  constructor
  · exact (C7_reshape_exact 1 1 1 [(9 : ℝ), 8, 7, 6]).1 (by decide)
  · exact (C7_reshape_exact 1 1 1 [(9 : ℝ), 8, 7]).2 (by decide)

/-! ## Claims about `train`, `get_cost` clipping, and `split` -/

/-- A concrete one-input, one-label, one-hidden-unit instance: `X = [[1]]`
(already unit-normalized), `Y = [[1]]`, `lam = 1`, parameter vector
`[0,0,0,0]` of the architecture's expected length
`1*(1+1) + 1*(1+1) = 4`, default iteration budget 250. -/
def s0 : NNState := ⟨[[1]], [[1]], 1, 1, 1, 1, [0, 0, 0, 0], 250⟩

/-- A black-box optimizer (spec §9: any map from objective, starting
point and budget to a vector) that returns the vector `[1,1,1,1]`. -/
def opt0 : (List ℝ → Option (ℝ × List ℝ)) → List ℝ → Nat → List ℝ :=
  fun _ _ _ => [1, 1, 1, 1]

/-- C1 counterexample: `train` does not store the optimizer's result.
On the concrete instance `s0` with an optimizer returning `[1,1,1,1]`,
the value returned by `train` is `[1,1,1,1]` but the stored parameter
vector after the call is still `[0,0,0,0]`: the source's `train`
(lines 43-62) never assigns `self.params`. -/
theorem C1_counterexample :
    (train s0 opt0 false true).2.2 = [1, 1, 1, 1] ∧
    (train s0 opt0 false true).1.params ≠ (train s0 opt0 false true).2.2 := by
  refine ⟨rfl, ?_⟩
  intro hcontr
  have h0 : (0 : ℝ) = 1 := by
    have hh := congrArg (fun l => l.headD 0) hcontr
    simp only [train, s0, opt0] at hh
    exact hh
  norm_num at h0

/-- C1 (amended): `train` leaves the instance state — in particular the
stored parameter vector `self.params` — entirely unchanged; it writes
the optimizer's result to the output file exactly when `save` is set and
returns that result instead of storing it (the caller must use
`set_params` to install it). -/
theorem C1_train_pure (s : NNState)
    (optimizer : (List ℝ → Option (ℝ × List ℝ)) → List ℝ → Nat → List ℝ)
    (verbose save : Bool) :
    train s optimizer verbose save =
      (s, (if save then some (optimizer (objective s) s.params s.maxiter) else none),
        optimizer (objective s) s.params s.maxiter) := rfl

/-- C2 (code bug): `get_cost` clips `h` but not `1 - h` before the
logarithms.  At the failing input `y = [[1, 0]]` (one-hot) and
`h = [[1/2, 1]]` (entries in `[0, 1]`), the second logarithm's argument
at the entry `h = 1` is `1 - h.clip(1e-10) = 0`, so numpy produces
`log 0 = -inf` and the cost is `+inf`, not finite: `CostFinite` fails
and the offending log argument is exactly 0, although the code's own
docstring promises "no log by zero errors". -/
theorem C2_cost_not_finite_at_one :
    OneHot [[(1 : ℝ), 0]] ∧ ¬ CostFinite [[(1 : ℝ) / 2, 1]] ∧
      1 - clipMin (1 : ℝ) = 0 := by
  have hclip : clipMin (1 : ℝ) = 1 := by
    unfold clipMin minval
    rw [max_eq_left]
    norm_num
  refine ⟨?_, ?_, by rw [hclip]; ring⟩
  · intro r hr
    simp only [List.mem_singleton] at hr
    subst hr
    refine ⟨?_, by norm_num⟩
    intro v hv
    simp only [List.mem_cons, List.not_mem_nil, or_false] at hv
    rcases hv with h | h <;> simp [h]
  · intro hfin
    have h := (hfin [(1 : ℝ) / 2, 1] (by simp) 1 (by simp)).2
    rw [hclip] at h
    simp at h

/-- A 15-row input matrix used to refute the claimed `round(0.6*n)`
split sizes. -/
def input15 : Mat := List.replicate 15 [(0 : ℝ)]

/-- C3 counterexample: on an input of 15 rows the claimed training-block
size is `round(0.6 * 15) = 9`, but `split` produces a training block of
`6 * (15 / 10) = 6` rows: under Python 2 the expression `length/10`
floor-divides, so the blocks are not `round`-based. -/
theorem C3_counterexample :
    ((split input15).1.length : ℤ) ≠ specTrainCount 15 := by
  have h1 : (split input15).1.length = 6 := by decide
  have h2 : specTrainCount 15 = 9 := by
    unfold specTrainCount
    norm_num
  rw [h1, h2]
  decide

/-- C3 (amended): for every input with `n ≥ 1` rows, `split` partitions
the rows, in order and without shuffling, into three consecutive blocks
of sizes `6*(n/10)` (train), `2*(n/10)` (cross-validation) and
`n - 8*(n/10)` (test), where `/` is integer floor division; the three
blocks concatenate back to the input.  For `n = 100` this gives
60/20/20 and for `n = 10` it gives 6/2/2, as the spec's examples state. -/
theorem C3_split_blocks (M : Mat) (_hn : 1 ≤ M.length) :
    (split M).1 = M.take (6 * (M.length / 10)) ∧
    (split M).2.1 = (M.drop (6 * (M.length / 10))).take (2 * (M.length / 10)) ∧
    (split M).2.2 = M.drop (8 * (M.length / 10)) ∧
    (split M).1.length = 6 * (M.length / 10) ∧
    (split M).2.1.length = 2 * (M.length / 10) ∧
    (split M).2.2.length = M.length - 8 * (M.length / 10) ∧
    (split M).1 ++ ((split M).2.1 ++ (split M).2.2) = M := by
  have h6 : 6 * (M.length / 10) ≤ M.length := by omega
  have h8 : 6 * (M.length / 10) + 2 * (M.length / 10) ≤ M.length := by omega
  have e1 : (split M).1 = M.take (6 * (M.length / 10)) := by
    simp [split, pySlice]
  have e2 : (split M).2.1 = (M.drop (6 * (M.length / 10))).take (2 * (M.length / 10)) := by
    simp only [split, pySlice]
    rw [List.drop_take]
    congr 1
    omega
  have e3 : (split M).2.2 = M.drop (8 * (M.length / 10)) := by
    simp only [split, pySlice]
    rw [List.take_length]
    congr 1
    omega
  refine ⟨e1, e2, e3, ?_, ?_, ?_, ?_⟩
  · rw [e1, List.length_take]; omega
  · rw [e2, List.length_take, List.length_drop]; omega
  · rw [e3, List.length_drop]
  · rw [e1, e2, e3]
    have hdd : M.drop (8 * (M.length / 10)) =
        (M.drop (6 * (M.length / 10))).drop (2 * (M.length / 10)) := by
      rw [List.drop_drop]
      congr 1
      omega
    rw [hdd, List.take_append_drop, List.take_append_drop]

/-- C3 witness: on a concrete 10-row input the blocks have sizes 6, 2
and 2 and concatenate back to the input. -/
theorem C3_split_blocks_witness :
    (split (List.replicate 10 [(0 : ℝ)])).1.length = 6 ∧
    (split (List.replicate 10 [(0 : ℝ)])).2.1.length = 2 ∧
    (split (List.replicate 10 [(0 : ℝ)])).2.2.length = 2 ∧
    (split (List.replicate 10 [(0 : ℝ)])).1 ++
      ((split (List.replicate 10 [(0 : ℝ)])).2.1 ++
        (split (List.replicate 10 [(0 : ℝ)])).2.2) = List.replicate 10 [(0 : ℝ)] := by
  obtain ⟨-, -, -, h4, h5, h6, h7⟩ :=
    C3_split_blocks (List.replicate 10 [(0 : ℝ)]) (by decide)
  exact ⟨by rw [h4]; decide, by rw [h5]; decide, by rw [h6]; decide, h7⟩

/-! ## Indexing helper lemmas -/

theorem getD_map {α β : Type} (f : α → β) (l : List α) (i : Nat) (d : β) (d0 : α)
    (h : i < l.length) : (l.map f).getD i d = f (l.getD i d0) := by
  induction l generalizing i with
  | nil => simp at h
  | cons a l ih =>
    cases i with
    | zero => rfl
    | succ i => exact ih i (by simpa using h)

theorem getD_zipWith {α β γ : Type} (f : α → β → γ) (as : List α) (bs : List β)
    (i : Nat) (d : γ) (da : α) (db : β) (ha : i < as.length) (hb : i < bs.length) :
    (List.zipWith f as bs).getD i d = f (as.getD i da) (bs.getD i db) := by
  induction as generalizing bs i with
  | nil => simp at ha
  | cons a as ih =>
    cases bs with
    | nil => simp at hb
    | cons b bs =>
      cases i with
      | zero => rfl
      | succ i => exact ih bs i (by simpa using ha) (by simpa using hb)

theorem getD_drop_one {α : Type} (l : List α) (i : Nat) (d : α) :
    (l.drop 1).getD i d = l.getD (i + 1) d := by
  cases l <;> rfl

theorem zipWith_sum_nonneg {α β : Type} (f : α → β → ℝ) (as : List α) (bs : List β)
    (h : ∀ a ∈ as, ∀ b ∈ bs, 0 ≤ f a b) : 0 ≤ (List.zipWith f as bs).sum := by
  induction as generalizing bs with
  | nil => simp
  | cons a as ih =>
    cases bs with
    | nil => simp
    | cons b bs =>
      simp only [List.zipWith_cons_cons, List.sum_cons]
      have h1 : 0 ≤ f a b := h a (by simp) b (by simp)
      have h2 : 0 ≤ (List.zipWith f as bs).sum :=
        ih bs (fun x hx z hz => h x (by simp [hx]) z (by simp [hz]))
      linarith

/-! ## Cost non-negativity (C9) -/

/-- C9: for every one-hot label matrix `y` and every prediction matrix
`h` with entries strictly between 0 and 1, the unregularized
cross-entropy value returned by `get_cost` is non-negative. -/
theorem C9_cost_nonneg (y h : Mat) (hy : OneHot y)
    (hh : ∀ r ∈ h, ∀ v ∈ r, 0 < v ∧ v < 1) :
    0 ≤ get_cost y h := by
  unfold get_cost
  apply zipWith_sum_nonneg
  intro yr hyr hr hhr
  apply zipWith_sum_nonneg
  intro yv hyv hv hhv
  have hy01 : yv = 0 ∨ yv = 1 := (hy yr hyr).1 yv hyv
  obtain ⟨hv0, hv1⟩ := hh hr hhr hv hhv
  have hminpos : (0 : ℝ) < minval := by unfold minval; norm_num
  have hminlt : minval < 1 := by unfold minval; norm_num
  have hclip0 : 0 < clipMin hv := lt_of_lt_of_le hminpos (le_max_right _ _)
  have hclip1 : clipMin hv ≤ 1 := max_le (le_of_lt hv1) (le_of_lt hminlt)
  have hlogA : Real.log (clipMin hv) ≤ 0 := Real.log_nonpos (le_of_lt hclip0) hclip1
  have hlogB : Real.log (1 - clipMin hv) ≤ 0 :=
    Real.log_nonpos (by linarith) (by linarith)
  have hyv0 : 0 ≤ yv := by rcases hy01 with h | h <;> simp [h]
  have hyv1 : yv ≤ 1 := by rcases hy01 with h | h <;> simp [h]
  have t1 : 0 ≤ yv * (-Real.log (clipMin hv)) := mul_nonneg hyv0 (by linarith)
  have t2 : 0 ≤ (1 - yv) * (-Real.log (1 - clipMin hv)) :=
    mul_nonneg (by linarith) (by linarith)
  have hre : costEntry yv hv =
      yv * (-Real.log (clipMin hv)) + (1 - yv) * (-Real.log (1 - clipMin hv)) := by
    unfold costEntry
    ring
  rw [hre]
  linarith

/-- C9 witness: a concrete one-hot label row and interior prediction row. -/
theorem C9_cost_nonneg_witness :
    0 ≤ get_cost [[(1 : ℝ), 0]] [[(1 : ℝ) / 2, (1 : ℝ) / 2]] := by
  apply C9_cost_nonneg
  · intro r hr
    simp only [List.mem_singleton] at hr
    subst hr
    refine ⟨?_, by norm_num⟩
    intro v hv
    simp only [List.mem_cons, List.not_mem_nil, or_false] at hv
    rcases hv with h | h <;> simp [h]
  · intro r hr v hv
    simp only [List.mem_singleton] at hr
    subst hr
    have hv2 : v = 1 / 2 := by
      simp only [List.mem_cons, List.not_mem_nil, or_false, or_self] at hv
      exact hv
    rw [hv2]
    norm_num

/-! ## Forward propagation (C8) -/

/-- C8: `feed_forward` returns the quintuple `(a1, z2, a2, z3, h)` where
`a1` is `X` with a prepended column of ones, `z2 = a1 * Theta1.T`
(entrywise, entry `(i,j)` is the dot product of row `i` of `a1` with row
`j` of `Theta1`), `a2` is the elementwise sigmoid of `z2` with a
prepended column of ones, `z3 = a2 * Theta2.T`, and `h` is the
elementwise sigmoid of `z3`; for an input of `m` rows and any valid
weight shapes, `h` has shape `(m, num_labels)`.  The statement is fully
general in `m`, so it covers the single-example case `m = 1` and the
full dataset identically. -/
theorem C8_feed_forward_spec (X t1 t2 : Mat) (m k hid L : Nat)
    (hX : X.length = m) (_hXr : ∀ r ∈ X, r.length = k)
    (ht1 : t1.length = hid) (_ht1r : ∀ r ∈ t1, r.length = k + 1)
    (ht2 : t2.length = L) (_ht2r : ∀ r ∈ t2, r.length = hid + 1) :
    (feed_forward X t1 t2).1 = addOnes X ∧
    (feed_forward X t1 t2).2.1 = matMulT (addOnes X) t1 ∧
    (feed_forward X t1 t2).2.2.1 = addOnes (sigmoidM (matMulT (addOnes X) t1)) ∧
    (feed_forward X t1 t2).2.2.2.1 =
      matMulT (addOnes (sigmoidM (matMulT (addOnes X) t1))) t2 ∧
    (feed_forward X t1 t2).2.2.2.2 =
      sigmoidM (matMulT (addOnes (sigmoidM (matMulT (addOnes X) t1))) t2) ∧
    (∀ i j, i < m → j < hid →
      (((feed_forward X t1 t2).2.1).getD i []).getD j 0 =
        dot (((feed_forward X t1 t2).1).getD i []) (t1.getD j [])) ∧
    (∀ i j, i < m → j < L →
      (((feed_forward X t1 t2).2.2.2.2).getD i []).getD j 0 =
        sigmoid ((((feed_forward X t1 t2).2.2.2.1).getD i []).getD j 0)) ∧
    ((feed_forward X t1 t2).2.2.2.2).length = m ∧
    (∀ r ∈ (feed_forward X t1 t2).2.2.2.2, r.length = L) := by
  have length_addOnes : ∀ M : Mat, (addOnes M).length = M.length := by
    intro M; simp [addOnes]
  have length_sigmoidM : ∀ M : Mat, (sigmoidM M).length = M.length := by
    intro M; simp [sigmoidM]
  have length_matMulT : ∀ A B : Mat, (matMulT A B).length = A.length := by
    intro A B; simp [matMulT]
  have hlen_a1 : (addOnes X).length = m := by rw [length_addOnes, hX]
  have hlen_z2 : (matMulT (addOnes X) t1).length = m := by
    rw [length_matMulT, hlen_a1]
  have hlen_a2 : (addOnes (sigmoidM (matMulT (addOnes X) t1))).length = m := by
    rw [length_addOnes, length_sigmoidM, hlen_z2]
  have hlen_z3 :
      (matMulT (addOnes (sigmoidM (matMulT (addOnes X) t1))) t2).length = m := by
    rw [length_matMulT, hlen_a2]
  refine ⟨rfl, rfl, rfl, rfl, rfl, ?_, ?_, ?_, ?_⟩
  · intro i j hi hj
    have e : (feed_forward X t1 t2).2.1 =
        List.map (fun ar => List.map (dot ar) t1) (addOnes X) := rfl
    rw [e, getD_map (fun ar => List.map (dot ar) t1) (addOnes X) i [] []
      (by rw [hlen_a1]; exact hi)]
    rw [getD_map (dot ((addOnes X).getD i [])) t1 j 0 [] (by rw [ht1]; exact hj)]
    rfl
  · intro i j hi hj
    have e : (feed_forward X t1 t2).2.2.2.2 =
        List.map (List.map sigmoid)
          (matMulT (addOnes (sigmoidM (matMulT (addOnes X) t1))) t2) := rfl
    have ez3 : matMulT (addOnes (sigmoidM (matMulT (addOnes X) t1))) t2 =
        List.map (fun ar => List.map (dot ar) t2)
          (addOnes (sigmoidM (matMulT (addOnes X) t1))) := rfl
    have hrowlen :
        ((matMulT (addOnes (sigmoidM (matMulT (addOnes X) t1))) t2).getD i []).length
          = L := by
      rw [ez3, getD_map (fun ar => List.map (dot ar) t2) _ i [] []
        (by rw [hlen_a2]; exact hi)]
      simp [ht2]
    rw [e, getD_map (List.map sigmoid) _ i [] [] (by rw [hlen_z3]; exact hi)]
    rw [getD_map sigmoid _ j 0 0 (by rw [hrowlen]; exact hj)]
    rfl
  · show (sigmoidM (matMulT (addOnes (sigmoidM (matMulT (addOnes X) t1))) t2)).length = m
    rw [length_sigmoidM, hlen_z3]
  · intro r hr
    have e : (feed_forward X t1 t2).2.2.2.2 =
        List.map (List.map sigmoid)
          (List.map (fun ar => List.map (dot ar) t2)
            (addOnes (sigmoidM (matMulT (addOnes X) t1)))) := rfl
    rw [e] at hr
    simp only [List.mem_map] at hr
    obtain ⟨zr, ⟨ar, _, rfl⟩, rfl⟩ := hr
    simp [ht2]

/-- C8 witness: a concrete single-example forward pass (m = k = hid =
L = 1) with its shape and entry facts. -/
theorem C8_feed_forward_spec_witness :
    ((feed_forward [[(1 : ℝ)]] [[0, 1]] [[1, 0]]).2.2.2.2).length = 1 ∧
    (((feed_forward [[(1 : ℝ)]] [[0, 1]] [[1, 0]]).2.2.2.2).getD 0 []).getD 0 0 =
      sigmoid ((((feed_forward [[(1 : ℝ)]] [[0, 1]] [[1, 0]]).2.2.2.1).getD 0 []).getD 0 0) := by
  obtain ⟨-, -, -, -, -, -, hsig, hlen, -⟩ :=
    C8_feed_forward_spec [[(1 : ℝ)]] [[0, 1]] [[1, 0]] 1 1 1 1
      (by decide) (by decide) (by decide) (by decide) (by decide) (by decide)
  exact ⟨hlen, hsig 0 0 (by decide) (by decide)⟩

/-! ## Regularization excludes the bias column (C5) -/

theorem regRow_compare (lam m : ℝ) (trow drow : List ℝ) :
    (regRow lam m trow drow).length = (regRow 0 m trow drow).length ∧
    ∀ c, c < (regRow lam m trow drow).length →
      (regRow lam m trow drow).getD c 0 =
        (regRow 0 m trow drow).getD c 0 +
          (if c = 0 then 0 else trow.getD c 0 * lam / m) := by
  cases drow with
  | nil => exact ⟨rfl, fun c hc => by simp [regRow] at hc⟩
  | cons d0 ds =>
    constructor
    · simp [regRow]
    · intro c hc
      cases c with
      | zero => simp [regRow]
      | succ c =>
        simp only [regRow, List.length_cons, List.length_zipWith] at hc
        have hcd : c < ds.length := by omega
        have hct : c < (trow.drop 1).length := by omega
        have h1 : (regRow lam m trow (d0 :: ds)).getD (c + 1) 0 =
            ds.getD c 0 + (trow.drop 1).getD c 0 * lam / m := by
          show (List.zipWith (fun d t => d + t * lam / m) ds (trow.drop 1)).getD c 0 = _
          rw [getD_zipWith (fun d t => d + t * lam / m) ds (trow.drop 1) c 0 0 0 hcd hct]
        have h2 : (regRow 0 m trow (d0 :: ds)).getD (c + 1) 0 =
            ds.getD c 0 + (trow.drop 1).getD c 0 * 0 / m := by
          show (List.zipWith (fun d t => d + t * 0 / m) ds (trow.drop 1)).getD c 0 = _
          rw [getD_zipWith (fun d t => d + t * 0 / m) ds (trow.drop 1) c 0 0 0 hcd hct]
        rw [h1, h2, getD_drop_one, if_neg (Nat.succ_ne_zero c)]
        ring

theorem fit_reg_compare (lam m : ℝ) (theta D : Mat) (r c : Nat)
    (hr : r < (fit_reg lam m theta D).length)
    (hc : c < ((fit_reg lam m theta D).getD r []).length) :
    ((fit_reg lam m theta D).getD r []).getD c 0 =
      ((fit_reg 0 m theta D).getD r []).getD c 0 +
        (if c = 0 then 0 else (theta.getD r []).getD c 0 * lam / m) := by
  have hlen : r < theta.length ∧ r < D.length := by
    simp only [fit_reg, List.length_zipWith] at hr
    omega
  have e1 : (fit_reg lam m theta D).getD r [] =
      regRow lam m (theta.getD r []) (D.getD r []) :=
    getD_zipWith (regRow lam m) theta D r [] [] [] hlen.1 hlen.2
  have e0 : (fit_reg 0 m theta D).getD r [] =
      regRow 0 m (theta.getD r []) (D.getD r []) :=
    getD_zipWith (regRow 0 m) theta D r [] [] [] hlen.1 hlen.2
  rw [e1] at hc
  rw [e1, e0]
  exact (regRow_compare lam m (theta.getD r []) (D.getD r [])).2 c hc

/-- C5: regularization excludes bias columns.  For every λ > 0 and every
correctly-sized parameter vector, the gradient `fit` returns is the
row-major flattening of the two gradient matrices, whose entries in
column 0 (the bias columns) coincide with the λ = 0 gradient, while each
entry in column `c > 0` exceeds the λ = 0 gradient by exactly
`Theta[r][c] * λ / m`; the two computations share the same accumulated
deltas because λ enters only the final update of lines 222-223. -/
theorem C5_reg_excludes_bias (lam : ℝ) (hid isz L : Nat) (params : List ℝ)
    (X y : Mat) (_hlam : 0 < lam)
    (hlen : params.length = hid * (isz + 1) + L * (hid + 1)) :
    ∃ t1 t2, reshape_theta hid isz L params = some (t1, t2) ∧
      (∃ J, fitCore lam hid isz L params X y =
        some (J, flattenPair (fit_gradmats lam t1 t2 X y))) ∧
      (∃ J0, fitCore 0 hid isz L params X y =
        some (J0, flattenPair (fit_gradmats 0 t1 t2 X y))) ∧
      (∀ r c, r < (fit_gradmats lam t1 t2 X y).1.length →
        c < (((fit_gradmats lam t1 t2 X y).1).getD r []).length →
        (((fit_gradmats lam t1 t2 X y).1).getD r []).getD c 0 =
          (((fit_gradmats 0 t1 t2 X y).1).getD r []).getD c 0 +
            (if c = 0 then 0 else (t1.getD r []).getD c 0 * lam / (X.length : ℝ))) ∧
      (∀ r c, r < (fit_gradmats lam t1 t2 X y).2.length →
        c < (((fit_gradmats lam t1 t2 X y).2).getD r []).length →
        (((fit_gradmats lam t1 t2 X y).2).getD r []).getD c 0 =
          (((fit_gradmats 0 t1 t2 X y).2).getD r []).getD c 0 +
            (if c = 0 then 0 else (t2.getD r []).getD c 0 * lam / (X.length : ℝ))) := by
  have hsome := reshape_theta_some hid isz L params hlen
  refine ⟨_, _, hsome, ?_, ?_, ?_, ?_⟩
  · unfold fitCore
    rw [hsome]
    exact ⟨_, rfl⟩
  · unfold fitCore
    rw [hsome]
    exact ⟨_, rfl⟩
  · intro r c hr hc
    exact fit_reg_compare lam (X.length : ℝ) _ _ r c hr hc
  · intro r c hr hc
    exact fit_reg_compare lam (X.length : ℝ) _ _ r c hr hc

/-- C5 witness: the regularization-exclusion statement instantiated at
the architecture of `s0` (all sizes 1), λ = 1, the zero parameter
vector, `X = [[1]]` and `y = [[1]]`. -/
theorem C5_reg_excludes_bias_witness :
    ∃ t1 t2, reshape_theta 1 1 1 [(0 : ℝ), 0, 0, 0] = some (t1, t2) ∧
      (∃ J, fitCore 1 1 1 1 [(0 : ℝ), 0, 0, 0] [[1]] [[1]] =
        some (J, flattenPair (fit_gradmats 1 t1 t2 [[1]] [[1]]))) ∧
      (∃ J0, fitCore 0 1 1 1 [(0 : ℝ), 0, 0, 0] [[1]] [[1]] =
        some (J0, flattenPair (fit_gradmats 0 t1 t2 [[1]] [[1]]))) ∧
      (∀ r c, r < (fit_gradmats 1 t1 t2 [[1]] [[1]]).1.length →
        c < (((fit_gradmats 1 t1 t2 [[1]] [[1]]).1).getD r []).length →
        (((fit_gradmats 1 t1 t2 [[1]] [[1]]).1).getD r []).getD c 0 =
          (((fit_gradmats 0 t1 t2 [[1]] [[1]]).1).getD r []).getD c 0 +
            (if c = 0 then 0
             else (t1.getD r []).getD c 0 * 1 / ((([[(1 : ℝ)]] : Mat).length : ℝ)))) ∧
      (∀ r c, r < (fit_gradmats 1 t1 t2 [[1]] [[1]]).2.length →
        c < (((fit_gradmats 1 t1 t2 [[1]] [[1]]).2).getD r []).length →
        (((fit_gradmats 1 t1 t2 [[1]] [[1]]).2).getD r []).getD c 0 =
          (((fit_gradmats 0 t1 t2 [[1]] [[1]]).2).getD r []).getD c 0 +
            (if c = 0 then 0
             else (t2.getD r []).getD c 0 * 1 / ((([[(1 : ℝ)]] : Mat).length : ℝ)))) :=
  C5_reg_excludes_bias 1 1 1 1 [(0 : ℝ), 0, 0, 0] [[1]] [[1]] one_pos (by decide)

/-! ## Frame property of `fit` (C10) -/

/-- C10: a single cost-and-gradient evaluation leaves the instance state
unchanged.  For every correctly-sized parameter vector, `fit` succeeds,
returns the state exactly as it was, emits the scalar cost to the
progress sink exactly when `output` is enabled (and nothing else), and
its `(cost, gradient)` value is the pure function `fitCore` of the
arguments and the stored fields. -/
theorem C10_fit_frame (s : NNState) (params : List ℝ) (X y : Mat) (o : Bool)
    (hlen : params.length =
      s.hidden_size * (s.input_size + 1) + s.num_labels * (s.hidden_size + 1)) :
    ∃ Jg, fitCore s.lam s.hidden_size s.input_size s.num_labels params X y = some Jg ∧
      fitS s params X y o = some (s, (if o then [Jg.1] else []), Jg) := by
  have hsome := reshape_theta_some s.hidden_size s.input_size s.num_labels params hlen
  obtain ⟨p, hp⟩ : ∃ p,
      fitCore s.lam s.hidden_size s.input_size s.num_labels params X y = some p := by
    unfold fitCore
    rw [hsome]
    exact ⟨_, rfl⟩
  refine ⟨p, hp, ?_⟩
  unfold fitS
  rw [hp]

/-- C10 witness: the frame property evaluated on the concrete instance
`s0` with its length-4 parameter vector and `output` enabled. -/
theorem C10_fit_frame_witness :
    ∃ Jg, fitCore s0.lam s0.hidden_size s0.input_size s0.num_labels
        [(0 : ℝ), 0, 0, 0] s0.X s0.Y = some Jg ∧
      fitS s0 [(0 : ℝ), 0, 0, 0] s0.X s0.Y true =
        some (s0, (if true then [Jg.1] else []), Jg) :=
  C10_fit_frame s0 [(0 : ℝ), 0, 0, 0] s0.X s0.Y true (by decide)

end NN
